import Mathlib

/-
Shallow embedding of the sweep pipeline of soapypower/power.py (class
SoapyPower).  Real-valued quantities (frequencies, sample rates, sample
values, thresholds) are modelled with exact rationals; Python integers are
modelled with Nat.  Each definition mirrors one function or code block of
power.py; line references are given in the doc comments.
-/

set_option maxHeartbeats 1000000

/-- Kernel-computable ceiling on rationals, used to model Python's math.ceil. -/
def ratCeil (x : ℚ) : ℤ := -Rat.floor (-x)

lemma ratFloor_eq (x : ℚ) : Rat.floor x = ⌊x⌋ := by
  rw [Rat.floor_def', Rat.floor_def]

lemma ratCeil_eq (x : ℚ) : ratCeil x = ⌈x⌉ := by
  rw [ratCeil, ratFloor_eq, ← Int.ceil_neg, neg_neg]

/-- Python's built-in round (round half to even), used by power.py via
round(freq / bin_size) in nearest_freq (power.py line 66). -/
def pythonRound (x : ℚ) : ℤ :=
  if x - Rat.floor x < 1/2 then Rat.floor x
  else if 1/2 < x - Rat.floor x then Rat.floor x + 1
  else if Even (Rat.floor x) then Rat.floor x else Rat.floor x + 1

/-- nearest_freq (power.py lines 64-66): round(freq / bin_size) * bin_size. -/
def nearest_freq (freq bin_size : ℚ) : ℚ :=
  (pythonRound (freq / bin_size) : ℚ) * bin_size

/-- The hop_size computed inside freq_plan (power.py line 116):
nearest_freq(sample_rate_crop, bin_size) with bin_size = sample_rate / bins
(bins_to_bin_size, power.py line 98). -/
def hopSize (sample_rate : ℚ) (bins : ℕ) (overlap : ℚ) : ℚ :=
  nearest_freq ((1 - overlap) * sample_rate) (sample_rate / (bins : ℚ))

/-- The local variable hops of freq_plan (power.py line 117):
ceil(freq_range / hop_size) when hopping, else 1. -/
def fpHops (sample_rate min_freq max_freq : ℚ) (bins : ℕ) (overlap : ℚ) : ℕ :=
  if (1 - overlap) * sample_rate ≤ max_freq - min_freq
  then (ratCeil ((max_freq - min_freq) / hopSize sample_rate bins overlap)).toNat else 1

/-- The local variable min_center_freq of freq_plan (power.py line 118):
min_freq + hop_size/2 when hopping, else min_freq + freq_range/2. -/
def fpCenter (sample_rate min_freq max_freq : ℚ) (bins : ℕ) (overlap : ℚ) : ℚ :=
  if (1 - overlap) * sample_rate ≤ max_freq - min_freq
  then min_freq + hopSize sample_rate bins overlap / 2
  else min_freq + (max_freq - min_freq) / 2

/-- freq_plan (power.py lines 108-151): the ordered list of hop centre
frequencies, [min_center_freq + i * hop_size for i in range(hops)];
hopping iff freq_range >= sample_rate_crop. -/
def freq_plan (sample_rate min_freq max_freq : ℚ) (bins : ℕ) (overlap : ℚ) : List ℚ :=
  (List.range (fpHops sample_rate min_freq max_freq bins overlap)).map
    (fun (i : ℕ) => fpCenter sample_rate min_freq max_freq bins overlap +
      (i : ℚ) * hopSize sample_rate bins overlap)

lemma getD_range_map (f : ℕ → ℚ) (n i : ℕ) (h : i < n) :
    ((List.range n).map f).getD i 0 = f i := by
  rw [List.getD_eq_getElem?_getD, List.getElem?_map, List.getElem?_range h]
  rfl

lemma freq_plan_length (sample_rate min_freq max_freq : ℚ) (bins : ℕ) (overlap : ℚ) :
    (freq_plan sample_rate min_freq max_freq bins overlap).length =
      fpHops sample_rate min_freq max_freq bins overlap := by
  unfold freq_plan
  rw [List.length_map, List.length_range]

lemma freq_plan_getD (sample_rate min_freq max_freq : ℚ) (bins : ℕ) (overlap : ℚ)
    (i : ℕ) (h : i < fpHops sample_rate min_freq max_freq bins overlap) :
    (freq_plan sample_rate min_freq max_freq bins overlap).getD i 0 =
      fpCenter sample_rate min_freq max_freq bins overlap +
        (i : ℚ) * hopSize sample_rate bins overlap := by
  unfold freq_plan
  exact getD_range_map _ _ _ h

lemma hopSize_ex : hopSize 2000000 1024 0 = 2000000 := by
  unfold hopSize nearest_freq pythonRound
  rw [ratFloor_eq]
  have h1 : ((1 : ℚ) - 0) * 2000000 / (2000000 / (1024 : ℕ)) = 1024 := by
    norm_num
  rw [h1]
  norm_num

/-- C3 counterexample: at sample_rate = 2 MHz, bins = 1024, overlap = 0 and
min_freq = max_freq = 100 MHz the plan is the single centre [100 MHz] with
hop_size = 2 MHz, and the claimed bound min_freq <= f0 - hop_size/2 fails
(100 MHz > 99 MHz). -/
theorem freq_plan_single_hop_uncovered :
    ¬ (100000000 ≤
        (freq_plan 2000000 100000000 100000000 1024 0).headD 0 -
          hopSize 2000000 1024 0 / 2) := by
  have hplan : freq_plan 2000000 100000000 100000000 1024 0 = [100000000] := by
    have h1 : fpHops 2000000 100000000 100000000 1024 0 = 1 := by
      unfold fpHops
      rw [if_neg (by norm_num)]
    have h2 : fpCenter 2000000 100000000 100000000 1024 0 = 100000000 := by
      unfold fpCenter
      rw [if_neg (by norm_num)]
      norm_num
    unfold freq_plan
    rw [h1, h2]
    rw [show List.range 1 = [0] from rfl]
    norm_num
  rw [hplan, hopSize_ex]
  norm_num

/-- C3 amended: consecutive elements of freq_plan are always exactly hop_size
apart, and when hopping occurs (max_freq - min_freq >= (1-overlap)*sample_rate)
the first element f0 satisfies min_freq <= f0 - hop_size/2 and the last element
satisfies last + hop_size/2 >= max_freq; when max_freq - min_freq <
(1-overlap)*sample_rate the list is exactly [min_freq + (max_freq-min_freq)/2]
(and there the two boundary bounds can fail, per the counterexample). -/
theorem freq_plan_amended (sample_rate min_freq max_freq : ℚ) (bins : ℕ) (overlap : ℚ)
    (hrate : 0 < sample_rate) (hov1 : overlap < 1) (hle : min_freq ≤ max_freq)
    (hhs : 0 < hopSize sample_rate bins overlap) :
    (∀ i, i + 1 < (freq_plan sample_rate min_freq max_freq bins overlap).length →
        (freq_plan sample_rate min_freq max_freq bins overlap).getD (i+1) 0 -
          (freq_plan sample_rate min_freq max_freq bins overlap).getD i 0 =
          hopSize sample_rate bins overlap) ∧
    ((1 - overlap) * sample_rate ≤ max_freq - min_freq →
        min_freq ≤ (freq_plan sample_rate min_freq max_freq bins overlap).headD 0 -
            hopSize sample_rate bins overlap / 2 ∧
        max_freq ≤ (freq_plan sample_rate min_freq max_freq bins overlap).getLastD 0 +
            hopSize sample_rate bins overlap / 2) ∧
    (max_freq - min_freq < (1 - overlap) * sample_rate →
        freq_plan sample_rate min_freq max_freq bins overlap =
          [min_freq + (max_freq - min_freq) / 2]) := by
  refine ⟨?_, ?_, ?_⟩
  · intro i hi
    rw [freq_plan_length] at hi
    rw [freq_plan_getD _ _ _ _ _ _ hi, freq_plan_getD _ _ _ _ _ _ (Nat.lt_of_succ_lt hi)]
    push_cast
    ring
  · intro hhop
    have hcrop : 0 < (1 - overlap) * sample_rate := by
      have h1 : 0 < 1 - overlap := by linarith
      positivity
    have hrange : 0 < max_freq - min_freq := lt_of_lt_of_le hcrop hhop
    have hceil : (0 : ℤ) <
        ⌈(max_freq - min_freq) / hopSize sample_rate bins overlap⌉ := by
      apply Int.ceil_pos.mpr
      positivity
    have hH : fpHops sample_rate min_freq max_freq bins overlap =
        (⌈(max_freq - min_freq) / hopSize sample_rate bins overlap⌉).toNat := by
      unfold fpHops
      rw [if_pos hhop, ratCeil_eq]
    have hHpos : 0 < fpHops sample_rate min_freq max_freq bins overlap := by omega
    have hlen : (freq_plan sample_rate min_freq max_freq bins overlap).length =
        fpHops sample_rate min_freq max_freq bins overlap :=
      freq_plan_length _ _ _ _ _
    have hne : freq_plan sample_rate min_freq max_freq bins overlap ≠ [] := by
      intro hnil
      rw [hnil] at hlen
      simp at hlen
      omega
    have hcen : fpCenter sample_rate min_freq max_freq bins overlap =
        min_freq + hopSize sample_rate bins overlap / 2 := by
      unfold fpCenter
      rw [if_pos hhop]
    have hhead : (freq_plan sample_rate min_freq max_freq bins overlap).headD 0 =
        (freq_plan sample_rate min_freq max_freq bins overlap).getD 0 0 := by
      cases hL : freq_plan sample_rate min_freq max_freq bins overlap with
      | nil => exact absurd hL hne
      | cons a l => simp [List.getD]
    have hlast : (freq_plan sample_rate min_freq max_freq bins overlap).getLastD 0 =
        (freq_plan sample_rate min_freq max_freq bins overlap).getD
          (fpHops sample_rate min_freq max_freq bins overlap - 1) 0 := by
      rw [List.getLastD_eq_getLast?, List.getLast?_eq_getLast _ hne,
        List.getLast_eq_getElem, Option.getD_some, List.getD_eq_getElem?_getD,
        List.getElem?_eq_getElem (by omega), Option.getD_some]
      congr 1
      omega
    constructor
    · rw [hhead, freq_plan_getD _ _ _ _ _ 0 (by omega), hcen]
      push_cast
      linarith
    · rw [hlast,
        freq_plan_getD _ _ _ _ _ (fpHops sample_rate min_freq max_freq bins overlap - 1)
          (by omega), hcen]
      have hcast : ((fpHops sample_rate min_freq max_freq bins overlap - 1 : ℕ) : ℚ) =
          ((fpHops sample_rate min_freq max_freq bins overlap : ℕ) : ℚ) - 1 := by
        have h1 : (1 : ℕ) ≤ fpHops sample_rate min_freq max_freq bins overlap := hHpos
        push_cast [Nat.cast_sub h1]
        ring
      rw [hcast]
      have hHge : ((max_freq - min_freq) / hopSize sample_rate bins overlap) ≤
          ((fpHops sample_rate min_freq max_freq bins overlap : ℕ) : ℚ) := by
        have h1 := Int.le_ceil ((max_freq - min_freq) / hopSize sample_rate bins overlap)
        have h3 : ((⌈(max_freq - min_freq) / hopSize sample_rate bins overlap⌉.toNat : ℤ)) =
            ⌈(max_freq - min_freq) / hopSize sample_rate bins overlap⌉ := by
          omega
        rw [hH]
        calc (max_freq - min_freq) / hopSize sample_rate bins overlap
            ≤ ((⌈(max_freq - min_freq) / hopSize sample_rate bins overlap⌉ : ℤ) : ℚ) := h1
          _ = ((⌈(max_freq - min_freq) / hopSize sample_rate bins overlap⌉.toNat : ℕ) : ℚ) := by
              exact_mod_cast h3.symm
      have hmul : max_freq - min_freq ≤
          ((fpHops sample_rate min_freq max_freq bins overlap : ℕ) : ℚ) *
            hopSize sample_rate bins overlap := by
        have h4 := (div_le_iff₀ hhs).mp hHge
        linarith
      linarith
  · intro hsmall
    have hnothop : ¬ ((1 - overlap) * sample_rate ≤ max_freq - min_freq) := not_le.mpr hsmall
    have h1 : fpHops sample_rate min_freq max_freq bins overlap = 1 := by
      unfold fpHops
      rw [if_neg hnothop]
    have h2 : fpCenter sample_rate min_freq max_freq bins overlap =
        min_freq + (max_freq - min_freq) / 2 := by
      unfold fpCenter
      rw [if_neg hnothop]
    unfold freq_plan
    rw [h1, h2]
    rw [show List.range 1 = [0] from rfl]
    norm_num

/-- Witness for freq_plan_amended at the concrete FM-band sweep
(88-108 MHz, 2 MHz rate, 1024 bins, no overlap). -/
theorem freq_plan_amended_witness :
    (∀ i, i + 1 < (freq_plan 2000000 88000000 108000000 1024 0).length →
        (freq_plan 2000000 88000000 108000000 1024 0).getD (i+1) 0 -
          (freq_plan 2000000 88000000 108000000 1024 0).getD i 0 =
          hopSize 2000000 1024 0) ∧
    ((1 - 0) * 2000000 ≤ (108000000 : ℚ) - 88000000 →
        (88000000 : ℚ) ≤ (freq_plan 2000000 88000000 108000000 1024 0).headD 0 -
            hopSize 2000000 1024 0 / 2 ∧
        (108000000 : ℚ) ≤ (freq_plan 2000000 88000000 108000000 1024 0).getLastD 0 +
            hopSize 2000000 1024 0 / 2) ∧
    ((108000000 : ℚ) - 88000000 < (1 - 0) * 2000000 →
        freq_plan 2000000 88000000 108000000 1024 0 =
          [88000000 + ((108000000 : ℚ) - 88000000) / 2]) :=
  freq_plan_amended 2000000 88000000 108000000 1024 0 (by norm_num) (by norm_num)
    (by norm_num) (by rw [hopSize_ex] ; norm_num)

/-- ceil(a / b) * b for Nat a b, modelling math.ceil(samples / size) * size
as used in create_buffer (power.py lines 157, 164, 169). -/
def npCeil (a b : ℕ) : ℕ := (a + b - 1) / b

lemma le_npCeil_mul (a b : ℕ) (hb : 0 < b) : a ≤ npCeil a b * b := by
  unfold npCeil
  have h := Nat.div_add_mod (a + b - 1) b
  have hm := Nat.mod_lt (a + b - 1) hb
  rw [Nat.mul_comm]
  generalize hq : b * ((a + b - 1) / b) = q at h
  omega

lemma npCeil_pos (a b : ℕ) (ha : 0 < a) (hb : 0 < b) : 0 < npCeil a b := by
  by_contra h
  have h0 : npCeil a b = 0 := by omega
  have h1 := le_npCeil_mul a b hb
  rw [h0] at h1
  omega

/-- The default maximum buffer size used when max_buffer_size is falsy
(power.py line 161): (100 * 1024**2) / 8 = 13107200 samples. -/
def defaultMaxBufferSize : ℕ := 13107200

/-- The aligned maximum buffer size (power.py line 164): the effective
max_buffer_size (the default when the argument is 0) rounded up to a
multiple of base_buffer_size. -/
def alignedMax (base_buffer_size max_buffer_size : ℕ) : ℕ :=
  npCeil (if max_buffer_size = 0 then defaultMaxBufferSize else max_buffer_size)
    base_buffer_size * base_buffer_size

/-- create_buffer (power.py lines 153-185), modelled by the pair
(buffer_repeats, buffer_size); the returned numpy array is represented by
its length buffer_size.  When max_buffer_size is 0 the default
(100 * 1024**2) / 8 is substituted; the resulting effective maximum is
always positive, so the clamping branch is always examined. -/
def create_buffer (bins repeats base_buffer_size max_buffer_size : ℕ) : ℕ × ℕ :=
  let samples := bins * repeats
  let buffer_size := npCeil samples base_buffer_size * base_buffer_size
  let m := if max_buffer_size = 0 then defaultMaxBufferSize else max_buffer_size
  if 0 < m then
    let aligned := npCeil m base_buffer_size * base_buffer_size
    if aligned < buffer_size then
      (npCeil buffer_size aligned, aligned)
    else (1, buffer_size)
  else (1, buffer_size)

lemma create_buffer_eq (bins repeats base max : ℕ) :
    create_buffer bins repeats base max =
      if alignedMax base max < npCeil (bins * repeats) base * base
      then (npCeil (npCeil (bins * repeats) base * base) (alignedMax base max),
            alignedMax base max)
      else (1, npCeil (bins * repeats) base * base) := by
  unfold create_buffer alignedMax defaultMaxBufferSize
  have hm : (0 : ℕ) < if max = 0 then 13107200 else max := by
    split <;> omega
  rw [if_pos hm]

lemma alignedMax_pos (base max : ℕ) (hbase : 0 < base) : 0 < alignedMax base max := by
  unfold alignedMax
  have h1 : 0 < npCeil (if max = 0 then defaultMaxBufferSize else max) base := by
    apply npCeil_pos _ _ _ hbase
    unfold defaultMaxBufferSize
    split <;> omega
  exact Nat.mul_pos h1 hbase

lemma create_buffer_main (bins repeats base max : ℕ) (hbase : 0 < base) :
    (create_buffer bins repeats base max).2 % base = 0 ∧
    bins * repeats ≤
      (create_buffer bins repeats base max).1 * (create_buffer bins repeats base max).2 ∧
    (alignedMax base max < npCeil (bins * repeats) base * base →
      (create_buffer bins repeats base max).2 = alignedMax base max) ∧
    (¬ alignedMax base max < npCeil (bins * repeats) base * base →
      create_buffer bins repeats base max = (1, npCeil (bins * repeats) base * base)) := by
  rw [create_buffer_eq]
  by_cases hclamp : alignedMax base max < npCeil (bins * repeats) base * base
  · rw [if_pos hclamp]
    have ham := alignedMax_pos base max hbase
    refine ⟨?_, ?_, fun _ => rfl, fun h => absurd hclamp h⟩
    · unfold alignedMax
      exact Nat.mul_mod_left _ _
    · show bins * repeats ≤
        npCeil (npCeil (bins * repeats) base * base) (alignedMax base max) *
          alignedMax base max
      have h1 : bins * repeats ≤ npCeil (bins * repeats) base * base :=
        le_npCeil_mul _ _ hbase
      have h2 : npCeil (bins * repeats) base * base ≤
          npCeil (npCeil (bins * repeats) base * base) (alignedMax base max) *
            alignedMax base max :=
        le_npCeil_mul _ _ ham
      omega
  · rw [if_neg hclamp]
    refine ⟨Nat.mul_mod_left _ _, ?_, fun h => absurd h hclamp, fun _ => rfl⟩
    have h1 : bins * repeats ≤ npCeil (bins * repeats) base * base :=
      le_npCeil_mul _ _ hbase
    omega

/-- C4 counterexample: create_buffer with max_buffer_size = 0 is not
unlimited: with bins = 2^24 = 16777216, repeats = 1, base_buffer_size = 1
the required 16777216 samples exceed the substituted default maximum of
13107200 samples, so the buffer is clamped to (buffer_repeats = 2,
buffer_size = 13107200) instead of the claimed (1, 16777216). -/
theorem create_buffer_zero_max_clamps :
    create_buffer 16777216 1 1 0 = (2, 13107200) ∧
    create_buffer 16777216 1 1 0 ≠ (1, 16777216) := by
  constructor
  · rfl
  · intro h
    rw [show create_buffer 16777216 1 1 0 = (2, 13107200) from rfl] at h
    simp at h

/-- C4 amended: max_buffer_size = 0 does not mean unlimited; it selects the
default maximum of (100 * 1024**2) / 8 = 13107200 samples.  The buffer size
is always bounded by that default rounded up to a multiple of
base_buffer_size, buffer_repeats * buffer_size still covers bins * repeats,
and the unclamped shape (buffer_repeats = 1, buffer_size =
ceil(bins*repeats / base) * base) holds exactly when the required size does
not exceed the aligned default maximum. -/
theorem create_buffer_zero_max_amended (bins repeats base : ℕ) (hbase : 0 < base) :
    (create_buffer bins repeats base 0).2 ≤ npCeil 13107200 base * base ∧
    bins * repeats ≤
      (create_buffer bins repeats base 0).1 * (create_buffer bins repeats base 0).2 ∧
    (npCeil (bins * repeats) base * base ≤ npCeil 13107200 base * base →
      create_buffer bins repeats base 0 = (1, npCeil (bins * repeats) base * base)) := by
  have hmain := create_buffer_main bins repeats base 0 hbase
  have ham : alignedMax base 0 = npCeil 13107200 base * base := by
    unfold alignedMax defaultMaxBufferSize
    rw [if_pos rfl]
  refine ⟨?_, hmain.2.1, ?_⟩
  · by_cases hclamp : alignedMax base 0 < npCeil (bins * repeats) base * base
    · rw [← ham]
      exact le_of_eq (hmain.2.2.1 hclamp)
    · rw [(hmain.2.2.2 hclamp)]
      rw [← ham]
      omega
  · intro hfit
    apply hmain.2.2.2
    rw [ham]
    omega

/-- Witness for create_buffer_zero_max_amended: bins = 8192, repeats = 10,
base_buffer_size = 16384, max_buffer_size = 0 (required 81920 samples fit
under the default maximum, so the buffer is unclamped). -/
theorem create_buffer_zero_max_amended_witness :
    (create_buffer 8192 10 16384 0).2 ≤ npCeil 13107200 16384 * 16384 ∧
    8192 * 10 ≤ (create_buffer 8192 10 16384 0).1 * (create_buffer 8192 10 16384 0).2 ∧
    (npCeil (8192 * 10) 16384 * 16384 ≤ npCeil 13107200 16384 * 16384 →
      create_buffer 8192 10 16384 0 = (1, npCeil (8192 * 10) 16384 * 16384)) :=
  create_buffer_zero_max_amended 8192 10 16384 (by decide)

/-- C5: for positive bins, repeats and base_buffer_size, the buffer size
returned by create_buffer is a multiple of base_buffer_size; when no
clamping occurs buffer_size * buffer_repeats covers bins * repeats samples;
and when clamping occurs the buffer size equals (hence is bounded by) the
aligned maximum and buffer_repeats * buffer_size still covers
bins * repeats.  (The aligned maximum is the effective max_buffer_size -
the default when the argument is 0 - rounded up to a multiple of
base_buffer_size.) -/
theorem create_buffer_spec (bins repeats base max : ℕ)
    (hbins : 0 < bins) (hreps : 0 < repeats) (hbase : 0 < base) :
    (create_buffer bins repeats base max).2 % base = 0 ∧
    bins * repeats ≤
      (create_buffer bins repeats base max).1 * (create_buffer bins repeats base max).2 ∧
    (alignedMax base max < npCeil (bins * repeats) base * base →
      (create_buffer bins repeats base max).2 ≤ alignedMax base max) ∧
    (¬ alignedMax base max < npCeil (bins * repeats) base * base →
      (create_buffer bins repeats base max).1 = 1 ∧
      bins * repeats ≤ (create_buffer bins repeats base max).2) := by
  have hmain := create_buffer_main bins repeats base max hbase
  refine ⟨hmain.1, hmain.2.1, fun h => le_of_eq (hmain.2.2.1 h), fun h => ?_⟩
  have heq := hmain.2.2.2 h
  rw [heq]
  exact ⟨rfl, le_npCeil_mul _ _ hbase⟩

/-- Witness for create_buffer_spec at the clamped sizing of scenario S4:
bins = 8192, repeats = 10, base = 16384, max_buffer_size = 65536. -/
theorem create_buffer_spec_witness :
    (create_buffer 8192 10 16384 65536).2 % 16384 = 0 ∧
    8192 * 10 ≤
      (create_buffer 8192 10 16384 65536).1 * (create_buffer 8192 10 16384 65536).2 ∧
    (alignedMax 16384 65536 < npCeil (8192 * 10) 16384 * 16384 →
      (create_buffer 8192 10 16384 65536).2 ≤ alignedMax 16384 65536) ∧
    (¬ alignedMax 16384 65536 < npCeil (8192 * 10) 16384 * 16384 →
      (create_buffer 8192 10 16384 65536).1 = 1 ∧
      8192 * 10 ≤ (create_buffer 8192 10 16384 65536).2) :=
  create_buffer_spec 8192 10 16384 65536 (by decide) (by decide) (by decide)

/-- numpy.max over the iq samples (power.py line 291); 0 for an empty list
(numpy would raise there; callers only use nonempty buffers). -/
def listMax : List ℚ → ℚ
  | [] => 0
  | x :: xs => xs.foldl max x

/-- The array burst = numpy.where(numpy.abs(iq) > absThreshold)[0]
(power.py line 294): the ordered list of indices whose absolute sample
value exceeds the threshold. -/
def burstIdx (iq : List ℚ) (t : ℚ) : List ℕ :=
  (List.range iq.length).filter (fun i => decide (t < |iq.getD i 0|))

/-- The stop-search loop of power.py lines 302-309: scan the burst index
list tracking laststop, and stop at the first gap larger than minBurst. -/
def findStop (m : ℕ) : ℕ → List ℕ → ℕ
  | laststop, [] => laststop
  | laststop, s :: rest => if m < s - laststop then laststop else findStop m s rest

/-- Declarative description of the stop index (spec 4.4 step 3): the left
end of the first adjacent gap exceeding minBurst, or the last
above-threshold index when no such gap exists. -/
def gapStop (m : ℕ) (B : List ℕ) : ℕ :=
  match (B.zip B.tail).find? (fun p => decide (m < p.2 - p.1)) with
  | some p => p.1
  | none => B.getLastD 0

/-- The fields of the signal dict filled in by the burst detector
(power.py lines 311-326); start/stop/safestart/safestop index the iq
buffer.  The remaining dict entries (samples, duration, td_array, rate,
reportTime, freq) are derived from these indices and the hop context. -/
structure BurstRec where
  start : ℕ
  stop : ℕ
  safestart : ℕ
  safestop : ℕ
deriving DecidableEq, Repr

/-- The burst detector of SoapyPower.psd (power.py lines 291-326) for one
acquisition: given the iq array, the current absThreshold and minBurst,
return the detected burst record, or none. -/
def detectBurst (iq : List ℚ) (t : ℚ) (minBurst : ℕ) : Option BurstRec :=
  if t < listMax iq then
    match burstIdx iq t with
    | [] => none
    | b0 :: rest =>
      let stop := findStop minBurst b0 (b0 :: rest)
      if minBurst < stop - b0 then
        some { start := b0, stop := stop,
               safestart := if minBurst < b0 then b0 - minBurst else 0,
               safestop := if minBurst < (iq.length - 1) - stop then stop + minBurst
                           else iq.length - 1 }
      else none
  else none

lemma mem_burstIdx (iq : List ℚ) (t : ℚ) (i : ℕ) :
    i ∈ burstIdx iq t ↔ i < iq.length ∧ t < |iq.getD i 0| := by
  unfold burstIdx
  rw [List.mem_filter, List.mem_range]
  simp

lemma burstIdx_sorted (iq : List ℚ) (t : ℚ) : (burstIdx iq t).Pairwise (· < ·) :=
  (List.pairwise_lt_range _).filter _

lemma sorted_head_le (a : ℕ) (l : List ℕ) (hp : (a :: l).Pairwise (· < ·)) :
    ∀ x ∈ a :: l, a ≤ x := by
  intro x hx
  rcases List.mem_cons.mp hx with h | h
  · omega
  · exact le_of_lt ((List.pairwise_cons.mp hp).1 x h)

lemma findStop_mem (m : ℕ) : ∀ (rest : List ℕ) (a : ℕ),
    findStop m a rest = a ∨ findStop m a rest ∈ rest
  | [], a => Or.inl rfl
  | s :: rs, a => by
    unfold findStop
    by_cases h : m < s - a
    · rw [if_pos h]
      exact Or.inl rfl
    · rw [if_neg h]
      rcases findStop_mem m rs s with h1 | h1
      · rw [h1]
        exact Or.inr (List.mem_cons_self _ _)
      · exact Or.inr (List.mem_cons_of_mem _ h1)

lemma findStop_self (m b0 : ℕ) (rest : List ℕ) :
    findStop m b0 (b0 :: rest) = findStop m b0 rest := by
  show (if m < b0 - b0 then b0 else findStop m b0 rest) = findStop m b0 rest
  rw [if_neg (by omega)]

lemma gapStop_cons (m : ℕ) (a s : ℕ) (rs : List ℕ) :
    gapStop m (a :: s :: rs) = if m < s - a then a else gapStop m (s :: rs) := by
  unfold gapStop
  rw [show (a :: s :: rs).tail = s :: rs from rfl, List.zip_cons_cons]
  by_cases h : m < s - a
  · rw [List.find?_cons_of_pos _ (by simpa using h), if_pos h]
  · rw [List.find?_cons_of_neg _ (by simpa using h), if_neg h]
    rw [show (s :: rs).tail = rs from rfl]
    cases hf : (List.zip (s :: rs) rs).find? (fun p => decide (m < p.2 - p.1)) with
    | some p => rfl
    | none =>
      simp only
      rw [List.getLastD_eq_getLast?, List.getLastD_eq_getLast?, List.getLast?_cons_cons]

lemma findStop_eq_gapStop (m : ℕ) : ∀ (rest : List ℕ) (a : ℕ),
    findStop m a rest = gapStop m (a :: rest)
  | [], a => by
    unfold findStop gapStop
    simp
  | s :: rs, a => by
    unfold findStop
    rw [gapStop_cons]
    by_cases h : m < s - a
    · rw [if_pos h, if_pos h]
    · rw [if_neg h, if_neg h]
      exact findStop_eq_gapStop m rs s

/-- C6: every burst emitted by the detector has: start = the smallest index
whose absolute sample value exceeds the threshold; stop = the last
above-threshold index preceding the first adjacent gap exceeding minBurst
(or the last above-threshold index when no gap exists); stop - start >
minBurst; safestart = max(0, start - minBurst); safestop =
min(length - 1, stop + minBurst); and 0 <= safestart <= start < stop <=
safestop < length.  No burst is emitted when max(iq) <= absThreshold
(and, by the third conjunct, none with stop - start <= minBurst). -/
theorem detectBurst_spec (iq : List ℚ) (t : ℚ) (m : ℕ) :
    (∀ b : BurstRec, detectBurst iq t m = some b →
      (b.start < iq.length ∧ t < |iq.getD b.start 0| ∧
        ∀ i, i < b.start → ¬ t < |iq.getD i 0|) ∧
      b.stop = gapStop m (burstIdx iq t) ∧
      m < b.stop - b.start ∧
      (b.safestart : ℤ) = max 0 ((b.start : ℤ) - (m : ℤ)) ∧
      b.safestop = min (iq.length - 1) (b.stop + m) ∧
      (b.safestart ≤ b.start ∧ b.start < b.stop ∧ b.stop ≤ b.safestop ∧
        b.safestop < iq.length)) ∧
    (listMax iq ≤ t → detectBurst iq t m = none) := by
  constructor
  · intro b hb
    unfold detectBurst at hb
    by_cases hmax : t < listMax iq
    · rw [if_pos hmax] at hb
      cases hB : burstIdx iq t with
      | nil =>
        rw [hB] at hb
        exact absurd hb (by simp)
      | cons b0 rest =>
        rw [hB] at hb
        simp only at hb
        by_cases hgap : m < findStop m b0 (b0 :: rest) - b0
        · rw [if_pos hgap] at hb
          have hbeq := (Option.some.injEq _ _).mp hb
          subst hbeq
          dsimp only
          have hsorted : (b0 :: rest).Pairwise (· < ·) := hB ▸ burstIdx_sorted iq t
          have hmem0 : b0 ∈ burstIdx iq t := by
            rw [hB]
            exact List.mem_cons_self _ _
          have hb0 := (mem_burstIdx iq t b0).mp hmem0
          have hstopmem : findStop m b0 (b0 :: rest) ∈ b0 :: rest := by
            rcases findStop_mem m (b0 :: rest) b0 with h | h
            · rw [h]
              exact List.mem_cons_self _ _
            · exact h
          have hstoplt : findStop m b0 (b0 :: rest) < iq.length := by
            have h1 : findStop m b0 (b0 :: rest) ∈ burstIdx iq t := by
              rw [hB]
              exact hstopmem
            exact ((mem_burstIdx iq t _).mp h1).1
          have hb0le : b0 ≤ findStop m b0 (b0 :: rest) :=
            sorted_head_le b0 rest hsorted _ hstopmem
          refine ⟨⟨hb0.1, hb0.2, ?_⟩, ?_, ?_, ?_, ?_, ?_⟩
          · intro i hi hti
            have himem : i ∈ b0 :: rest := by
              rw [← hB, mem_burstIdx]
              exact ⟨lt_trans hi hb0.1, hti⟩
            have h2 : b0 ≤ i := sorted_head_le b0 rest hsorted _ himem
            omega
          · rw [findStop_self]
            exact findStop_eq_gapStop m rest b0
          · exact hgap
          · split <;> omega
          · split <;> omega
          · refine ⟨?_, by omega, ?_, ?_⟩
            · split <;> omega
            · split <;> omega
            · split <;> omega
        · rw [if_neg hgap] at hb
          exact absurd hb (by simp)
    · rw [if_neg hmax] at hb
      exact absurd hb (by simp)
  · intro h
    unfold detectBurst
    rw [if_neg (not_lt.mpr h)]

/-- Witness for detectBurst_spec: the buffer [0,0,20,20,20,20,20,0] with
threshold 10 and minBurst 2 yields the burst (start 2, stop 6,
safestart 0, safestop 7). -/
theorem detectBurst_spec_witness :
    detectBurst [0, 0, 20, 20, 20, 20, 20, 0] 10 2 =
      some ⟨2, 6, 0, 7⟩ ∧
    (((⟨2, 6, 0, 7⟩ : BurstRec).start < ([0, 0, 20, 20, 20, 20, 20, 0] : List ℚ).length ∧
      (10 : ℚ) < |([0, 0, 20, 20, 20, 20, 20, 0] : List ℚ).getD (⟨2, 6, 0, 7⟩ : BurstRec).start 0| ∧
      ∀ i, i < (⟨2, 6, 0, 7⟩ : BurstRec).start →
        ¬ (10 : ℚ) < |([0, 0, 20, 20, 20, 20, 20, 0] : List ℚ).getD i 0|) ∧
    (⟨2, 6, 0, 7⟩ : BurstRec).stop = gapStop 2 (burstIdx [0, 0, 20, 20, 20, 20, 20, 0] 10) ∧
    2 < (⟨2, 6, 0, 7⟩ : BurstRec).stop - (⟨2, 6, 0, 7⟩ : BurstRec).start ∧
    ((⟨2, 6, 0, 7⟩ : BurstRec).safestart : ℤ) =
      max 0 (((⟨2, 6, 0, 7⟩ : BurstRec).start : ℤ) - ((2 : ℕ) : ℤ)) ∧
    (⟨2, 6, 0, 7⟩ : BurstRec).safestop =
      min (([0, 0, 20, 20, 20, 20, 20, 0] : List ℚ).length - 1)
        ((⟨2, 6, 0, 7⟩ : BurstRec).stop + 2) ∧
    ((⟨2, 6, 0, 7⟩ : BurstRec).safestart ≤ (⟨2, 6, 0, 7⟩ : BurstRec).start ∧
      (⟨2, 6, 0, 7⟩ : BurstRec).start < (⟨2, 6, 0, 7⟩ : BurstRec).stop ∧
      (⟨2, 6, 0, 7⟩ : BurstRec).stop ≤ (⟨2, 6, 0, 7⟩ : BurstRec).safestop ∧
      (⟨2, 6, 0, 7⟩ : BurstRec).safestop < ([0, 0, 20, 20, 20, 20, 20, 0] : List ℚ).length)) :=
  ⟨by decide,
    (detectBurst_spec [0, 0, 20, 20, 20, 20, 20, 0] 10 2).1 ⟨2, 6, 0, 7⟩ (by decide)⟩

/-- Helper for argmaxList: fold over the remaining values carrying the
current (best index, best value); a strictly larger value replaces the
best, so ties keep the first index, as numpy.argmax does. -/
def argmaxFrom : List ℚ → ℕ → ℕ × ℚ → ℕ × ℚ
  | [], _, acc => acc
  | x :: xs, i, acc =>
    if acc.2 < x then argmaxFrom xs (i + 1) (i, x) else argmaxFrom xs (i + 1) acc

/-- numpy.argmax(pwr_array) (power.py line 410): the first index of the
maximum value; 0 for the empty list (numpy raises there, which
measurements turns into an early return). -/
def argmaxList (l : List ℚ) : ℕ :=
  match l with
  | [] => 0
  | x :: xs => (argmaxFrom xs 1 (0, x)).1

lemma argmaxFrom_cases : ∀ (xs : List ℚ) (i : ℕ) (acc : ℕ × ℚ),
    (argmaxFrom xs i acc).1 = acc.1 ∨
    (i ≤ (argmaxFrom xs i acc).1 ∧ (argmaxFrom xs i acc).1 < i + xs.length)
  | [], i, acc => Or.inl rfl
  | x :: xs, i, acc => by
    unfold argmaxFrom
    by_cases h : acc.2 < x
    · rw [if_pos h]
      rcases argmaxFrom_cases xs (i + 1) (i, x) with h1 | h1
      · right
        rw [h1]
        simp only [List.length_cons]
        omega
      · right
        simp only [List.length_cons]
        omega
    · rw [if_neg h]
      rcases argmaxFrom_cases xs (i + 1) acc with h1 | h1
      · exact Or.inl h1
      · right
        simp only [List.length_cons]
        omega

lemma argmaxList_lt (l : List ℚ) (h : l ≠ []) : argmaxList l < l.length := by
  cases l with
  | nil => exact absurd rfl h
  | cons x xs =>
    show (argmaxFrom xs 1 (0, x)).1 < (x :: xs).length
    rcases argmaxFrom_cases xs 1 (0, x) with h1 | h1
    · rw [h1]
      simp
    · simp only [List.length_cons]
      omega

/-- The measurement values derived by SoapyPower.measurements (power.py
lines 409-452) and serialised into the JSON record: rssi (dB), bandwidth
(Hz), the refined frequency (Hz), and the span endpoints leftFreq and
rightFreq (Hz; serialised as spanMHz after division by 1e6). -/
structure Meas where
  rssi : ℚ
  bandwidth : ℚ
  freqRefined : ℚ
  spanL : ℚ
  spanR : ℚ
deriving DecidableEq, Repr

/-- edges = numpy.where(pwr_array > halfPower)[0] (power.py line 424). -/
def measEdges (pwr : List ℚ) (halfPower : ℚ) : List ℕ :=
  (List.range pwr.length).filter (fun i => decide (halfPower < pwr.getD i 0))

/-- The unconditional core of SoapyPower.measurements (power.py lines
420-452), computed once the rssi threshold gate has passed: -3 dB edges,
resolution, bandwidth, span endpoints (from the unrefined hop frequency)
and the refined frequency freq + offset.  rate stands for both
signal["rate"] and self.device.sample_rate, which psd sets to the same
device sample rate (power.py lines 326, 429, 432-433). -/
def measCore (rate freq : ℚ) (pwr : List ℚ) : Meas :=
  let peak := argmaxList pwr
  let rssi := pwr.getD peak 0
  let halfPower := rssi - 3
  let edges := measEdges pwr halfPower
  let leftEdge := edges.headD 0
  let rightEdge := edges.getLastD 0
  let resolution := rate / (pwr.length : ℚ)
  let leftFreq := freq - rate / 2
  let rightFreq := freq + rate / 2
  let bandwidth := resolution * ((rightEdge : ℚ) - (leftEdge : ℚ))
  let midpoint := (pwr.length : ℚ) / 2
  let centreFreq := ((leftEdge : ℚ) + (rightEdge : ℚ)) / 2
  let offset := if centreFreq ≤ midpoint then resolution * (midpoint - centreFreq) * (-1)
                else resolution * (centreFreq - midpoint)
  { rssi := rssi, bandwidth := bandwidth, freqRefined := freq + offset,
    spanL := leftFreq, spanR := rightFreq }

/-- SoapyPower.measurements (power.py lines 401-452) restricted to the
values it serialises: none when pwr_array is empty (numpy.argmax raises
and the bare except returns None) or when the peak power is below the
configured threshold; otherwise the measurement record. -/
def measurements_model (threshold rate freq : ℚ) (pwr : List ℚ) : Option Meas :=
  match pwr with
  | [] => none
  | _ :: _ =>
    if pwr.getD (argmaxList pwr) 0 < threshold then none
    else some (measCore rate freq pwr)

lemma measurements_model_some (threshold rate freq : ℚ) (pwr : List ℚ) (m : Meas)
    (h : measurements_model threshold rate freq pwr = some m) :
    pwr ≠ [] ∧ ¬ (pwr.getD (argmaxList pwr) 0 < threshold) ∧
      m = measCore rate freq pwr := by
  cases pwr with
  | nil => exact absurd h (by simp [measurements_model])
  | cons x xs =>
    unfold measurements_model at h
    by_cases hth : (x :: xs).getD (argmaxList (x :: xs)) 0 < threshold
    · rw [if_pos hth] at h
      exact absurd h (by simp)
    · rw [if_neg hth] at h
      exact ⟨by simp, hth, ((Option.some.injEq _ _).mp h).symm⟩

lemma getLastD_mem (l : List ℕ) (hne : l ≠ []) : l.getLastD 0 ∈ l := by
  rw [List.getLastD_eq_getLast?, List.getLast?_eq_getLast _ hne, Option.getD_some]
  exact List.getLast_mem hne

lemma headD_mem (l : List ℕ) (hne : l ≠ []) : l.headD 0 ∈ l := by
  cases l with
  | nil => exact absurd rfl hne
  | cons a rest => exact List.mem_cons_self _ _

lemma sorted_headD_le (l : List ℕ) (hp : l.Pairwise (· < ·)) (hne : l ≠ [])
    (x : ℕ) (hx : x ∈ l) : l.headD 0 ≤ x := by
  cases l with
  | nil => exact absurd rfl hne
  | cons a rest => exact sorted_head_le a rest hp x hx

lemma offset_abs_le (rate NQ LQ RQ : ℚ) (hrate : 0 < rate) (hN : 0 < NQ)
    (hL0 : 0 ≤ LQ) (hLR : LQ ≤ RQ) (hR : RQ + 1 ≤ NQ) :
    |(if (LQ + RQ) / 2 ≤ NQ / 2
      then rate / NQ * (NQ / 2 - (LQ + RQ) / 2) * (-1)
      else rate / NQ * ((LQ + RQ) / 2 - NQ / 2))| ≤ rate / 2 := by
  have hres : 0 ≤ rate / NQ := le_of_lt (div_pos hrate hN)
  have hkey : rate / NQ * (NQ / 2) = rate / 2 := by
    field_simp
  by_cases hc : (LQ + RQ) / 2 ≤ NQ / 2
  · rw [if_pos hc]
    have hnn : 0 ≤ rate / NQ * (NQ / 2 - (LQ + RQ) / 2) :=
      mul_nonneg hres (by linarith)
    rw [abs_of_nonpos (by nlinarith)]
    have heq : -(rate / NQ * (NQ / 2 - (LQ + RQ) / 2) * (-1)) =
        rate / NQ * (NQ / 2 - (LQ + RQ) / 2) := by ring
    rw [heq]
    have hmc : NQ / 2 - (LQ + RQ) / 2 ≤ NQ / 2 := by linarith
    calc rate / NQ * (NQ / 2 - (LQ + RQ) / 2)
        ≤ rate / NQ * (NQ / 2) := mul_le_mul_of_nonneg_left hmc hres
      _ = rate / 2 := hkey
  · rw [if_neg hc]
    have hnn : 0 ≤ rate / NQ * ((LQ + RQ) / 2 - NQ / 2) :=
      mul_nonneg hres (by linarith)
    rw [abs_of_nonneg hnn]
    have hmc : (LQ + RQ) / 2 - NQ / 2 ≤ NQ / 2 := by linarith
    calc rate / NQ * ((LQ + RQ) / 2 - NQ / 2)
        ≤ rate / NQ * (NQ / 2) := mul_le_mul_of_nonneg_left hmc hres
      _ = rate / 2 := hkey

/-- C7: every measurement record produced by measurements has
bandwidth >= 0, and its refined frequency differs from the hop centre
frequency by at most half the sample rate (in MHz:
|frequencyMHz - freq/1e6| <= rate/(2e6)), for every non-empty power array
and every burst passing the threshold. -/
theorem measurements_props (threshold rate freq : ℚ) (pwr : List ℚ) (m : Meas)
    (hrate : 0 < rate) (hm : measurements_model threshold rate freq pwr = some m) :
    0 ≤ m.bandwidth ∧
    |m.freqRefined / 1000000 - freq / 1000000| ≤ rate / (2 * 1000000) := by
  obtain ⟨hne, hth, hmeq⟩ := measurements_model_some threshold rate freq pwr m hm
  subst hmeq
  have hN : 0 < pwr.length := List.length_pos.mpr hne
  have hpeak : argmaxList pwr < pwr.length := argmaxList_lt pwr hne
  set rssi := pwr.getD (argmaxList pwr) 0 with hrssi
  set edges := measEdges pwr (rssi - 3) with hedges
  have hpeakmem : argmaxList pwr ∈ edges := by
    rw [hedges, measEdges, List.mem_filter, List.mem_range]
    refine ⟨hpeak, ?_⟩
    simp only [decide_eq_true_eq]
    rw [← hrssi]
    linarith
  have hedne : edges ≠ [] := by
    intro h0
    rw [h0] at hpeakmem
    exact absurd hpeakmem (List.not_mem_nil _)
  have hsorted : edges.Pairwise (· < ·) := by
    rw [hedges]
    exact (List.pairwise_lt_range _).filter _
  set L := edges.headD 0 with hL
  set R := edges.getLastD 0 with hR
  have hLR : L ≤ R := sorted_headD_le edges hsorted hedne R (getLastD_mem edges hedne)
  have hRlt : R < pwr.length := by
    have h1 : R ∈ edges := getLastD_mem edges hedne
    rw [hedges, measEdges, List.mem_filter, List.mem_range] at h1
    exact h1.1
  have hbw : (measCore rate freq pwr).bandwidth =
      rate / (pwr.length : ℚ) * ((R : ℚ) - (L : ℚ)) := rfl
  have hfr : (measCore rate freq pwr).freqRefined = freq +
      (if ((L : ℚ) + (R : ℚ)) / 2 ≤ (pwr.length : ℚ) / 2
       then rate / (pwr.length : ℚ) * ((pwr.length : ℚ) / 2 - ((L : ℚ) + (R : ℚ)) / 2) * (-1)
       else rate / (pwr.length : ℚ) * (((L : ℚ) + (R : ℚ)) / 2 - (pwr.length : ℚ) / 2)) := rfl
  have hQN : (0 : ℚ) < (pwr.length : ℚ) := by exact_mod_cast hN
  have hQLR : (L : ℚ) ≤ (R : ℚ) := by exact_mod_cast hLR
  have hQL0 : (0 : ℚ) ≤ (L : ℚ) := by positivity
  have hQR : (R : ℚ) + 1 ≤ (pwr.length : ℚ) := by exact_mod_cast hRlt
  constructor
  · rw [hbw]
    apply mul_nonneg (le_of_lt (div_pos hrate hQN))
    linarith
  · rw [hfr]
    have hoffb := offset_abs_le rate (pwr.length : ℚ) (L : ℚ) (R : ℚ)
      hrate hQN hQL0 hQLR hQR
    have heq : ∀ off : ℚ, (freq + off) / 1000000 - freq / 1000000 = off / 1000000 :=
      fun off => by ring
    rw [heq, abs_div]
    have habs : |(1000000 : ℚ)| = 1000000 := by norm_num
    rw [habs]
    linarith

/-- C10: the spanMHz endpoints in every emitted measurement record equal
the unrefined hop centre frequency minus and plus sample_rate/2; they are
computed before the refinement offset is added, so the span is centred on
the hop frequency, not on the refined frequency in the same record. -/
theorem measurements_span (threshold rate freq : ℚ) (pwr : List ℚ) (m : Meas)
    (hm : measurements_model threshold rate freq pwr = some m) :
    m.spanL = freq - rate / 2 ∧ m.spanR = freq + rate / 2 ∧
    (m.spanL + m.spanR) / 2 = freq := by
  obtain ⟨hne, hth, hmeq⟩ := measurements_model_some threshold rate freq pwr m hm
  subst hmeq
  refine ⟨rfl, rfl, ?_⟩
  show ((freq - rate / 2) + (freq + rate / 2)) / 2 = freq
  ring

lemma meas_ex :
    measurements_model 0 300 1000 [1, 5, 2] = some ⟨5, 0, 950, 850, 1150⟩ := by
  have hargmax : argmaxList [1, 5, 2] = 1 := by decide
  have hgetD : ([1, 5, 2] : List ℚ).getD 1 0 = 5 := rfl
  have hedges : measEdges [1, 5, 2] ((5 : ℚ) - 3) = [1] := by
    have h53 : (5 : ℚ) - 3 = 2 := by norm_num
    rw [h53]
    decide
  show (if ([1, 5, 2] : List ℚ).getD (argmaxList [1, 5, 2]) 0 < 0 then none
        else some (measCore 300 1000 [1, 5, 2])) = some ⟨5, 0, 950, 850, 1150⟩
  rw [hargmax, hgetD, if_neg (by norm_num)]
  congr 1
  simp only [measCore]
  rw [hargmax, hgetD, hedges]
  rw [show ([1] : List ℕ).headD 0 = 1 from rfl, show ([1] : List ℕ).getLastD 0 = 1 from rfl]
  rw [Meas.mk.injEq]
  norm_num

/-- Witness for measurements_props: threshold 0 dBm, rate 300 Hz, hop
frequency 1000 Hz, power array [1, 5, 2]. -/
theorem measurements_props_witness :
    ((0 : ℚ) < 300 ∧
      measurements_model 0 300 1000 [1, 5, 2] = some ⟨5, 0, 950, 850, 1150⟩) ∧
    (0 ≤ (⟨5, 0, 950, 850, 1150⟩ : Meas).bandwidth ∧
      |(⟨5, 0, 950, 850, 1150⟩ : Meas).freqRefined / 1000000 - 1000 / 1000000| ≤
        300 / (2 * 1000000)) :=
  ⟨⟨by norm_num, meas_ex⟩,
    measurements_props 0 300 1000 [1, 5, 2] ⟨5, 0, 950, 850, 1150⟩ (by norm_num) meas_ex⟩

/-- Witness for measurements_span at the same concrete measurement. -/
theorem measurements_span_witness :
    measurements_model 0 300 1000 [1, 5, 2] = some ⟨5, 0, 950, 850, 1150⟩ ∧
    ((⟨5, 0, 950, 850, 1150⟩ : Meas).spanL = 1000 - 300 / 2 ∧
      (⟨5, 0, 950, 850, 1150⟩ : Meas).spanR = 1000 + 300 / 2 ∧
      ((⟨5, 0, 950, 850, 1150⟩ : Meas).spanL + (⟨5, 0, 950, 850, 1150⟩ : Meas).spanR) / 2 =
        1000) :=
  ⟨meas_ex, measurements_span 0 300 1000 [1, 5, 2] ⟨5, 0, 950, 850, 1150⟩ meas_ex⟩

/-- iq = buffer.real + buffer.imag (power.py line 282): the per-sample
algebraic sum of real and imaginary parts of the acquisition buffer. -/
def iqOf (buf : List (ℚ × ℚ)) : List ℚ := buf.map (fun s => s.1 + s.2)

/-- noise = abs(numpy.mean(iq[:100])) uses this mean of the first 100
samples (power.py line 285). -/
def mean100 (iq : List ℚ) : ℚ := (iq.take 100).sum / ((iq.take 100).length : ℚ)

/-- The dynamic threshold update (power.py lines 284-287): if
noise < absThreshold then absThreshold becomes noise * 100, else it is
unchanged. -/
def updateThreshold (t noise : ℚ) : ℚ := if noise < t then noise * 100 else t

/-- The initial absThreshold (10 ** (threshold/10)) * 2**31 (power.py
line 268 with scale = 2**31 from line 43), modelled for configured
thresholds that are integer multiples of 10 dBm (threshold = 10 * k),
where the power is exactly rational. -/
def initThreshold10 (k : ℤ) : ℚ := (10 : ℚ) ^ k * 2 ^ 31

/-- Writing a detection result over the current signal record: a new
burst replaces the record, no burst keeps it (power.py lines 319-326 set
every field of the signal dict when a burst is found). -/
def overwrite {α : Type} (acc o : Option α) : Option α :=
  match o with
  | some b => some b
  | none => acc

/-- One acquisition repeat of the loop in SoapyPower.psd (power.py lines
270-334): read a buffer, form iq, update the adaptive threshold from the
noise estimate, and overwrite the signal record whenever a burst is
detected. -/
def psdHopStep (m : ℕ) (st : ℚ × Option BurstRec) (buf : List (ℚ × ℚ)) :
    ℚ × Option BurstRec :=
  (updateThreshold st.1 |mean100 (iqOf buf)|,
   overwrite st.2 (detectBurst (iqOf buf) (updateThreshold st.1 |mean100 (iqOf buf)|) m))

/-- The whole repeat loop of one hop (power.py lines 264-339): the
threshold starts from the dBm-derived value, the signal record starts
empty, and every acquisition repeat runs psdHopStep. -/
def psdHop (t0 : ℚ) (m : ℕ) (bufs : List (List (ℚ × ℚ))) : ℚ × Option BurstRec :=
  bufs.foldl (psdHopStep m) (t0, none)

/-- The per-repeat detection outcomes of a hop, with the threshold
evolving exactly as in the loop. -/
def hopDetections (t0 : ℚ) (m : ℕ) : List (List (ℚ × ℚ)) → List (Option BurstRec)
  | [] => []
  | buf :: rest =>
    detectBurst (iqOf buf) (updateThreshold t0 |mean100 (iqOf buf)|) m ::
      hopDetections (updateThreshold t0 |mean100 (iqOf buf)|) m rest

/-- The last non-none entry of a list of optional values. -/
def lastSome {α : Type} (l : List (Option α)) : Option α :=
  l.foldl overwrite none

/-- The adaptive threshold after all acquisition repeats of a hop. -/
def hopThresholdFinal (t0 : ℚ) (bufs : List (List (ℚ × ℚ))) : ℚ :=
  bufs.foldl (fun t buf => updateThreshold t |mean100 (iqOf buf)|) t0

/-- The sequence of absThreshold values over a hop: the initial value
followed by the value after each acquisition repeat. -/
def hopThresholdTrace (t0 : ℚ) (bufs : List (List (ℚ × ℚ))) : List ℚ :=
  (bufs.map (fun buf => |mean100 (iqOf buf)|)).scanl updateThreshold t0

lemma updateThreshold_nonneg (t n : ℚ) (ht : 0 ≤ t) (hn : 0 ≤ n) :
    0 ≤ updateThreshold t n := by
  unfold updateThreshold
  split
  · positivity
  · exact ht

lemma updateThreshold_le (t n : ℚ) (ht : 0 ≤ t) (hn : 0 ≤ n) :
    updateThreshold t n ≤ 100 * t := by
  unfold updateThreshold
  split
  · linarith
  · linarith

lemma scanl_head? (f : ℚ → ℚ → ℚ) (t : ℚ) (ns : List ℚ) :
    (ns.scanl f t).head? = some t := by
  cases ns <;> rfl

lemma chain_scanl (ns : List ℚ) (t : ℚ) (ht : 0 ≤ t) (hns : ∀ n ∈ ns, 0 ≤ n) :
    List.Chain' (fun a b => b ≤ 100 * a) (ns.scanl updateThreshold t) := by
  induction ns generalizing t with
  | nil => simp [List.scanl]
  | cons n ns ih =>
    rw [List.scanl]
    rw [List.chain'_cons']
    have hn0 : 0 ≤ n := hns n (List.mem_cons_self _ _)
    constructor
    · intro y hy
      rw [scanl_head?] at hy
      have hy' : y = updateThreshold t n := by
        exact (by simpa using hy : updateThreshold t n = y).symm
      rw [hy']
      exact updateThreshold_le t n ht hn0
    · exact ih (updateThreshold t n) (updateThreshold_nonneg t n ht hn0)
        (fun x hx => hns x (List.mem_cons_of_mem _ hx))

lemma getLastD_default_irrel (l : List ℚ) (hne : l ≠ []) (d e : ℚ) :
    l.getLastD d = l.getLastD e := by
  rw [List.getLastD_eq_getLast?, List.getLastD_eq_getLast?,
    List.getLast?_eq_getLast _ hne]
  rfl

lemma scanl_ne_nil (f : ℚ → ℚ → ℚ) (t : ℚ) (ns : List ℚ) : ns.scanl f t ≠ [] := by
  cases ns <;> simp [List.scanl]

lemma getLastD_scanl (f : ℚ → ℚ → ℚ) : ∀ (ns : List ℚ) (t : ℚ),
    (ns.scanl f t).getLastD 0 = ns.foldl f t
  | [], t => rfl
  | n :: ns, t => by
    rw [List.scanl]
    rw [List.getLastD_cons]
    rw [getLastD_default_irrel _ (scanl_ne_nil f (f t n) ns) t 0]
    rw [getLastD_scanl f ns (f t n)]
    rfl

/-- C1 counterexample: with threshold = -90 dBm the initial ceiling is
10^(-9) * 2^31 = 2147483648/10^9 (about 2.147); one acquisition with
noise = 1 triggers the update (1 < 2.147) and sets absThreshold to
1 * 100 = 100, which is larger than both the pre-update value and the
initial dBm-derived ceiling - the threshold increased. -/
theorem threshold_update_raises :
    initThreshold10 (-9) < updateThreshold (initThreshold10 (-9)) 1 := by
  have h : initThreshold10 (-9) = 2147483648 / 1000000000 := by
    unfold initThreshold10
    norm_num
  rw [h]
  unfold updateThreshold
  rw [if_pos (by norm_num)]
  norm_num

/-- C1 amended: within a hop the threshold starts at the dBm-derived value
and each acquisition replaces it by 100 * noise whenever the observed
noise is below the current threshold.  The updated value can exceed both
the pre-update value and the initial ceiling; what does hold is that every
updated value is at most 100 times the value before the update (and the
trace ends at the threshold the loop carries forward). -/
theorem threshold_trace_amended (t0 : ℚ) (bufs : List (List (ℚ × ℚ)))
    (h0 : 0 ≤ t0) :
    List.Chain' (fun a b => b ≤ 100 * a) (hopThresholdTrace t0 bufs) ∧
    (hopThresholdTrace t0 bufs).headD 0 = t0 ∧
    (hopThresholdTrace t0 bufs).getLastD 0 = hopThresholdFinal t0 bufs := by
  refine ⟨?_, ?_, ?_⟩
  · unfold hopThresholdTrace
    apply chain_scanl _ _ h0
    intro n hn
    rw [List.mem_map] at hn
    obtain ⟨buf, hbuf, rfl⟩ := hn
    exact abs_nonneg _
  · unfold hopThresholdTrace
    rw [List.headD_eq_head?, scanl_head?]
    rfl
  · unfold hopThresholdTrace hopThresholdFinal
    rw [getLastD_scanl, List.foldl_map]

/-- Witness for threshold_trace_amended: initial threshold 1 and a single
acquisition buffer [(5, 0)]. -/
theorem threshold_trace_amended_witness :
    (0 : ℚ) ≤ 1 ∧
    (List.Chain' (fun a b => b ≤ 100 * a) (hopThresholdTrace 1 [[(5, 0)]]) ∧
      (hopThresholdTrace 1 [[(5, 0)]]).headD 0 = 1 ∧
      (hopThresholdTrace 1 [[(5, 0)]]).getLastD 0 = hopThresholdFinal 1 [[(5, 0)]]) :=
  ⟨by norm_num, threshold_trace_amended 1 [[(5, 0)]] (by norm_num)⟩

lemma foldl_overwrite {α : Type} (l : List (Option α)) (acc : Option α) :
    l.foldl overwrite acc = overwrite acc (lastSome l) := by
  induction l generalizing acc with
  | nil => rfl
  | cons o l ih =>
    rw [List.foldl_cons, ih]
    have hcons : lastSome (o :: l) = overwrite (overwrite none o) (lastSome l) := by
      show (o :: l).foldl overwrite none = overwrite (overwrite none o) (lastSome l)
      rw [List.foldl_cons]
      exact ih (overwrite none o)
    rw [hcons]
    cases lastSome l with
    | some b => rfl
    | none => cases o <;> rfl

lemma lastSome_cons {α : Type} (o : Option α) (l : List (Option α)) :
    lastSome (o :: l) = overwrite (overwrite none o) (lastSome l) := by
  show (o :: l).foldl overwrite none = overwrite (overwrite none o) (lastSome l)
  rw [List.foldl_cons]
  exact foldl_overwrite l (overwrite none o)

lemma psdHop_foldl (m : ℕ) : ∀ (bufs : List (List (ℚ × ℚ))) (t : ℚ)
    (acc : Option BurstRec),
    (bufs.foldl (psdHopStep m) (t, acc)).2 =
      overwrite acc (lastSome (hopDetections t m bufs)) ∧
    (bufs.foldl (psdHopStep m) (t, acc)).1 =
      bufs.foldl (fun u buf => updateThreshold u |mean100 (iqOf buf)|) t
  | [], t, acc => ⟨rfl, rfl⟩
  | buf :: bufs, t, acc => by
    rw [List.foldl_cons, List.foldl_cons]
    have hstep : psdHopStep m (t, acc) buf =
        (updateThreshold t |mean100 (iqOf buf)|,
          overwrite acc
            (detectBurst (iqOf buf) (updateThreshold t |mean100 (iqOf buf)|) m)) := rfl
    rw [hstep]
    have ih := psdHop_foldl m bufs (updateThreshold t |mean100 (iqOf buf)|)
      (overwrite acc (detectBurst (iqOf buf) (updateThreshold t |mean100 (iqOf buf)|) m))
    refine ⟨?_, ih.2⟩
    rw [ih.1]
    have hdet : hopDetections t m (buf :: bufs) =
        detectBurst (iqOf buf) (updateThreshold t |mean100 (iqOf buf)|) m ::
          hopDetections (updateThreshold t |mean100 (iqOf buf)|) m bufs := rfl
    rw [hdet, lastSome_cons]
    cases lastSome (hopDetections (updateThreshold t |mean100 (iqOf buf)|) m bufs) with
    | some b => rfl
    | none =>
      cases detectBurst (iqOf buf) (updateThreshold t |mean100 (iqOf buf)|) m <;> rfl

/-- C2 amended: per hop the signal record holds at most one burst (so at
most one datagram is sent per hop); when several acquisition repeats of
the hop detect bursts, the record returned by the repeat loop is the LAST
detection (each detection overwrites the signal dict), not the first; and
all repeats run regardless of earlier detections, evolving the adaptive
threshold across the whole hop. -/
theorem psdHop_emission (t0 : ℚ) (m : ℕ) (bufs : List (List (ℚ × ℚ))) :
    (psdHop t0 m bufs).2.toList.length ≤ 1 ∧
    (psdHop t0 m bufs).2 = lastSome (hopDetections t0 m bufs) ∧
    (psdHop t0 m bufs).1 = hopThresholdFinal t0 bufs := by
  have h := psdHop_foldl m bufs t0 none
  refine ⟨?_, ?_, h.2⟩
  · cases hv : (psdHop t0 m bufs).2 <;> simp
  · rw [show psdHop t0 m bufs = bufs.foldl (psdHopStep m) (t0, none) from rfl, h.1]
    cases lastSome (hopDetections t0 m bufs) with
    | some b => rfl
    | none => rfl

/-- First acquisition buffer of the C2 counterexample (complex samples). -/
def buf1ex : List (ℚ × ℚ) :=
  [(900, 0), (-900, 0), (900, 0), (-900, 0), (900, 0), (-900, 0)]

/-- Second acquisition buffer of the C2 counterexample. -/
def buf2ex : List (ℚ × ℚ) :=
  [(0, 0), (900, 0), (-900, 0), (900, 0), (-900, 0), (900, 0), (-900, 0)]

lemma iq_buf1ex : iqOf buf1ex = [900, -900, 900, -900, 900, -900] := by
  unfold iqOf buf1ex
  norm_num

lemma iq_buf2ex : iqOf buf2ex = [0, 900, -900, 900, -900, 900, -900] := by
  unfold iqOf buf2ex
  norm_num

lemma mean_buf1ex : mean100 [(900 : ℚ), -900, 900, -900, 900, -900] = 0 := by
  unfold mean100
  rw [List.take_of_length_le (by simp)]
  norm_num

lemma mean_buf2ex : mean100 [(0 : ℚ), 900, -900, 900, -900, 900, -900] = 0 := by
  unfold mean100
  rw [List.take_of_length_le (by simp)]
  norm_num

lemma det_buf1ex :
    detectBurst [(900 : ℚ), -900, 900, -900, 900, -900] 0 2 = some ⟨0, 5, 0, 5⟩ := by
  decide

lemma det_buf2ex :
    detectBurst [(0 : ℚ), 900, -900, 900, -900, 900, -900] 0 2 = some ⟨1, 6, 0, 6⟩ := by
  decide

/-- C2 counterexample: with initial threshold 1000 and minBurst 2, the
first acquisition of the hop detects the burst (start 0, stop 5) but the
loop's final signal record holds the burst (start 1, stop 6) detected by
the second acquisition: the emitted record describes the LAST detected
burst, not the first. -/
theorem psdHop_last_overwrites :
    detectBurst (iqOf buf1ex) (updateThreshold 1000 |mean100 (iqOf buf1ex)|) 2 =
      some ⟨0, 5, 0, 5⟩ ∧
    (psdHop 1000 2 [buf1ex, buf2ex]).2 = some ⟨1, 6, 0, 6⟩ ∧
    (⟨0, 5, 0, 5⟩ : BurstRec) ≠ ⟨1, 6, 0, 6⟩ := by
  have ht1 : updateThreshold 1000 |mean100 (iqOf buf1ex)| = 0 := by
    rw [iq_buf1ex, mean_buf1ex]
    unfold updateThreshold
    rw [if_pos (by norm_num)]
    norm_num
  have ht2 : updateThreshold 0 |mean100 (iqOf buf2ex)| = 0 := by
    rw [iq_buf2ex, mean_buf2ex]
    unfold updateThreshold
    rw [if_neg (by norm_num)]
  refine ⟨?_, ?_, by decide⟩
  · rw [iq_buf1ex] at ht1 ⊢
    rw [ht1, det_buf1ex]
  · show (psdHopStep 2 (psdHopStep 2 (1000, none) buf1ex) buf2ex).2 = some ⟨1, 6, 0, 6⟩
    have hstep1 : psdHopStep 2 (1000, none) buf1ex = (0, some ⟨0, 5, 0, 5⟩) := by
      unfold psdHopStep
      rw [ht1, iq_buf1ex, det_buf1ex]
      rfl
    rw [hstep1]
    unfold psdHopStep
    rw [show ((0 : ℚ), some (⟨0, 5, 0, 5⟩ : BurstRec)).1 = (0 : ℚ) from rfl]
    rw [ht2, iq_buf2ex, det_buf2ex]
    rfl

/-- The datagram dispatch of the sweep hop loop (power.py lines 361-370):
for each hop in order, when the hop produced a measurement record the
datagram is sent with sock.sendto.  power.py wraps none of this in a
try/except, so an error raised by sendto propagates out of the loop.
Datagram payloads are abstracted as naturals; send models sock.sendto and
returns Except.error when the send raises.  The result collects the
successfully sent datagrams, or the first propagated error. -/
def sweepSends (send : ℕ → Except ℕ Unit) : List (Option ℕ) → Except ℕ (List ℕ)
  | [] => Except.ok []
  | none :: rest => sweepSends send rest
  | some msg :: rest =>
    match send msg with
    | Except.error e => Except.error e
    | Except.ok _ =>
      match sweepSends send rest with
      | Except.error e => Except.error e
      | Except.ok sent => Except.ok (msg :: sent)

/-- The try/finally of SoapyPower.sweep (power.py lines 352-399): whatever
the hop loop produced - normal completion or a propagating exception -
the finally clause runs stop() (Draining); the Bool records that. -/
def sweepModelC8 (send : ℕ → Except ℕ Unit) (msgs : List (Option ℕ)) :
    Except ℕ (List ℕ) × Bool :=
  (sweepSends send msgs, true)

/-- C8 counterexample: a sweep over two hops that both produce datagrams,
with a send that always raises (error 7): the first send's error
propagates out of the hop loop - the sweep does not continue with the
next hop and never completes successfully - contradicting the claim that
a UDP send failure is logged and never terminates the sweep. -/
theorem udp_send_failure_propagates :
    sweepSends (fun _ => Except.error 7) [some 1, some 2] = Except.error 7 ∧
    ∀ sent, sweepSends (fun _ => Except.error 7) [some 1, some 2] ≠ Except.ok sent := by
  constructor
  · rfl
  · intro sent h
    rw [show sweepSends (fun _ => Except.error 7) [some 1, some 2] =
        Except.error 7 from rfl] at h
    exact absurd h (by simp)

lemma sweepSends_append (send : ℕ → Except ℕ Unit) :
    ∀ (pre : List (Option ℕ)) (post : List (Option ℕ)) (msg e : ℕ),
    (∀ x ∈ pre, ∀ s : ℕ, x = some s → send s = Except.ok ()) →
    send msg = Except.error e →
    sweepSends send (pre ++ some msg :: post) = Except.error e
  | [], post, msg, e, _, hmsg => by
    show (match send msg with
          | Except.error e' => Except.error e'
          | Except.ok _ =>
            match sweepSends send post with
            | Except.error e' => Except.error e'
            | Except.ok sent => Except.ok (msg :: sent)) = Except.error e
    rw [hmsg]
  | none :: rest, post, msg, e, hpre, hmsg => by
    show sweepSends send (rest ++ some msg :: post) = Except.error e
    exact sweepSends_append send rest post msg e
      (fun y hy s hys => hpre y (List.mem_cons_of_mem _ hy) s hys) hmsg
  | some s :: rest, post, msg, e, hpre, hmsg => by
    have hs : send s = Except.ok () := hpre (some s) (List.mem_cons_self _ _) s rfl
    have hih := sweepSends_append send rest post msg e
      (fun y hy u hyu => hpre y (List.mem_cons_of_mem _ hy) u hyu) hmsg
    show (match send s with
          | Except.error e' => Except.error e'
          | Except.ok _ =>
            match sweepSends send (rest ++ some msg :: post) with
            | Except.error e' => Except.error e'
            | Except.ok sent => Except.ok (s :: sent)) = Except.error e
    rw [hs, hih]

/-- C8 amended: a UDP send failure is NOT absorbed: when every earlier
datagram of the sweep was sent successfully and sendto raises on one
datagram, the error propagates out of the hop loop (the remaining hops
are never processed - the result is the error whatever comes after), and
the finally clause still runs stop() before the exception escapes. -/
theorem udp_send_amended (send : ℕ → Except ℕ Unit) (pre post : List (Option ℕ))
    (msg e : ℕ)
    (hpre : ∀ x ∈ pre, ∀ s : ℕ, x = some s → send s = Except.ok ())
    (hmsg : send msg = Except.error e) :
    sweepSends send (pre ++ some msg :: post) = Except.error e ∧
    (sweepModelC8 send (pre ++ some msg :: post)).2 = true :=
  ⟨sweepSends_append send pre post msg e hpre hmsg, rfl⟩

/-- The send function of the C8 witness: raises (error 99) on datagram 5,
succeeds on everything else. -/
def sendEx : ℕ → Except ℕ Unit := fun n => if n = 5 then Except.error 99 else Except.ok ()

/-- Witness for udp_send_amended: hops [some 3, none] succeed, then the
datagram 5 fails with error 99, and the trailing hop [some 8] is cut off. -/
theorem udp_send_amended_witness :
    ((∀ x ∈ [some 3, none], ∀ s : ℕ, x = some s → sendEx s = Except.ok ()) ∧
      sendEx 5 = Except.error 99) ∧
    (sweepSends sendEx ([some 3, none] ++ some 5 :: [some 8]) = Except.error 99 ∧
      (sweepModelC8 sendEx ([some 3, none] ++ some 5 :: [some 8])).2 = true) :=
  ⟨⟨fun x hx s hxs => by
      rcases List.mem_cons.mp hx with h1 | hx2
      · rw [h1] at hxs
        have hs : (3 : ℕ) = s := by simpa using hxs
        rw [← hs]
        rfl
      · rcases List.mem_cons.mp hx2 with h1 | hx3
        · rw [h1] at hxs
          exact absurd hxs (by simp)
        · exact absurd hx3 (List.not_mem_nil _),
    rfl⟩,
    udp_send_amended sendEx [some 3, none] [some 8] 5 99
      (fun x hx s hxs => by
        rcases List.mem_cons.mp hx with h1 | hx2
        · rw [h1] at hxs
          have hs : (3 : ℕ) = s := by simpa using hxs
          rw [← hs]
          rfl
        · rcases List.mem_cons.mp hx2 with h1 | hx3
          · rw [h1] at hxs
            exact absurd hxs (by simp)
          · exact absurd hx3 (List.not_mem_nil _))
      rfl⟩

/-- The acquisition repeat loop of SoapyPower.psd (power.py lines 270-334)
viewed through its reads of the global _shutdown flag: flag gives the
value the flag has at each successive read, k is the index of the next
read.  Each executed repeat is followed by exactly one read (line 333,
"if _shutdown: break"); the second argument is the remaining
buffer_repeats.  Returns (repeats executed, next read index). -/
def psdRepeatLoop (flag : ℕ → Bool) : ℕ → ℕ → ℕ × ℕ
  | k, 0 => (0, k)
  | k, r + 1 =>
    if flag k then (1, k + 1)
    else ((psdRepeatLoop flag (k + 1) r).1 + 1, (psdRepeatLoop flag (k + 1) r).2)

/-- The hop loop of SoapyPower.sweep (power.py lines 361-372): each hop
runs the psd repeat loop (whose tail reads the flag after each repeat) and
then reads the flag once more at the hop boundary (lines 371-372,
"if _shutdown: break").  The second argument is the number of remaining
hops.  Returns ((hops started, repeats executed), next read index). -/
def hopLoop (flag : ℕ → Bool) (reps : ℕ) : ℕ → ℕ → (ℕ × ℕ) × ℕ
  | k, 0 => ((0, 0), k)
  | k, h + 1 =>
    if flag (psdRepeatLoop flag k reps).2
    then ((1, (psdRepeatLoop flag k reps).1), (psdRepeatLoop flag k reps).2 + 1)
    else
      (((hopLoop flag reps ((psdRepeatLoop flag k reps).2 + 1) h).1.1 + 1,
        (hopLoop flag reps ((psdRepeatLoop flag k reps).2 + 1) h).1.2 +
          (psdRepeatLoop flag k reps).1),
        (hopLoop flag reps ((psdRepeatLoop flag k reps).2 + 1) h).2)

/-- The run loop of SoapyPower.sweep (power.py line 356): the while
condition reads the flag before starting each run ("while not _shutdown
and ..."); the last argument is the remaining run budget (the runs cap).
Returns ((runs started, hops started, repeats executed), next read
index). -/
def runLoop (flag : ℕ → Bool) (hops reps : ℕ) : ℕ → ℕ → (ℕ × ℕ × ℕ) × ℕ
  | k, 0 => ((0, 0, 0), k)
  | k, r + 1 =>
    if flag k then ((0, 0, 0), k + 1)
    else
      (((runLoop flag hops reps (hopLoop flag reps (k + 1) hops).2 r).1.1 + 1,
        (runLoop flag hops reps (hopLoop flag reps (k + 1) hops).2 r).1.2.1 +
          (hopLoop flag reps (k + 1) hops).1.1,
        (runLoop flag hops reps (hopLoop flag reps (k + 1) hops).2 r).1.2.2 +
          (hopLoop flag reps (k + 1) hops).1.2),
        (runLoop flag hops reps (hopLoop flag reps (k + 1) hops).2 r).2)

/-- SoapyPower.sweep including its finally clause (power.py lines
352-399): the loop outcome paired with the fact that stop() (Draining)
always runs afterwards. -/
def sweepShutdownModel (flag : ℕ → Bool) (runs hops reps k : ℕ) :
    ((ℕ × ℕ × ℕ) × ℕ) × Bool :=
  (runLoop flag hops reps k runs, true)

/-- C9: once the shutdown flag is set (it is never cleared, so reads are
monotone, and some read k returns true), the sweep (a) starts no further
run, hop or repeat from the while-condition check on, (b) within a hop in
progress the psd loop completes only the in-progress repeat, and (c) a
hop in progress finishes as exactly one hop with at most one more repeat
(its pending PSD future is collected inside that hop, power.py line 336),
after which the loop exits and Draining (stop) runs. -/
theorem shutdown_bound (flag : ℕ → Bool)
    (hmono : ∀ i j, i ≤ j → flag i = true → flag j = true)
    (k : ℕ) (hk : flag k = true) (runs hops reps : ℕ) :
    (runLoop flag hops reps k runs).1 = (0, 0, 0) ∧
    (∀ r, (psdRepeatLoop flag k (r + 1)).1 = 1) ∧
    (∀ h, (hopLoop flag reps k (h + 1)).1 = (1, min reps 1)) ∧
    (sweepShutdownModel flag runs hops reps k).2 = true := by
  refine ⟨?_, ?_, ?_, rfl⟩
  · cases runs with
    | zero => rfl
    | succ r =>
      unfold runLoop
      rw [if_pos hk]
  · intro r
    unfold psdRepeatLoop
    rw [if_pos hk]
  · intro h
    cases reps with
    | zero =>
      unfold hopLoop
      rw [show psdRepeatLoop flag k 0 = (0, k) from rfl]
      rw [if_pos hk]
      simp
    | succ r =>
      have hp : psdRepeatLoop flag k (r + 1) = (1, k + 1) := by
        unfold psdRepeatLoop
        rw [if_pos hk]
      have hk1 : flag (k + 1) = true := hmono k (k + 1) (by omega) hk
      have hmin : min (r + 1) 1 = 1 := by omega
      unfold hopLoop
      rw [hp, if_pos hk1, hmin]

/-- Witness for shutdown_bound with the constantly-true flag, read index
5, 2 remaining runs, 3 hops per run and 4 repeats per hop. -/
theorem shutdown_bound_witness :
    (runLoop (fun _ => true) 3 4 5 2).1 = (0, 0, 0) ∧
    (∀ r, (psdRepeatLoop (fun _ => true) 5 (r + 1)).1 = 1) ∧
    (∀ h, (hopLoop (fun _ => true) 4 5 (h + 1)).1 = (1, min 4 1)) ∧
    (sweepShutdownModel (fun _ => true) 2 3 4 5).2 = true :=
  shutdown_bound (fun _ => true) (fun i j hij hi => hi) 5 rfl 2 3 4
